import Mathlib

set_option maxHeartbeats 1000000
set_option maxRecDepth 8192

/-!
Verification of the voice-analysis session app (App.tsx, geminiService.ts,
storageService, AdminDashboard).  The session state machine, the share-link
encode/decode pipeline (JSON.stringify / base64 / UTF-8 and back), the remote
analyzer client and the persistence layer are embedded as executable Lean
functions, translated from the TypeScript source; the platform primitives
(JSON.parse, btoa/atob, encodeURIComponent composition, URLSearchParams)
are modelled by executable Lean functions following their specified
behaviour on the inputs this app produces.
-/

/-! ## Character helpers -/

/-- The opening curly brace character. -/
def lbrace : Char := Char.ofNat 123

/-- The closing curly brace character. -/
def rbrace : Char := Char.ofNat 125

/-- Decimal digit character for a value below ten. -/
def digitChar : Nat → Char
  | 0 => '0' | 1 => '1' | 2 => '2' | 3 => '3' | 4 => '4'
  | 5 => '5' | 6 => '6' | 7 => '7' | 8 => '8' | _ => '9'

/-- Lower-case hexadecimal digit character for a value below sixteen. -/
def hexChar : Nat → Char
  | 0 => '0' | 1 => '1' | 2 => '2' | 3 => '3' | 4 => '4'
  | 5 => '5' | 6 => '6' | 7 => '7' | 8 => '8' | 9 => '9'
  | 10 => 'a' | 11 => 'b' | 12 => 'c' | 13 => 'd' | 14 => 'e' | _ => 'f'

/-- Hexadecimal digit value of a character, accepting both letter cases. -/
def parseHexDigit (c : Char) : Option Nat :=
  if 48 ≤ c.toNat ∧ c.toNat ≤ 57 then some (c.toNat - 48)
  else if 97 ≤ c.toNat ∧ c.toNat ≤ 102 then some (c.toNat - 87)
  else if 65 ≤ c.toNat ∧ c.toNat ≤ 70 then some (c.toNat - 55)
  else none

/-- Decimal digits of a natural number, most significant first; `fuel` must
exceed the number. -/
def natCharsAux : Nat → Nat → List Char
  | 0, _ => []
  | f + 1, n => if n < 10 then [digitChar n] else natCharsAux f (n / 10) ++ [digitChar (n % 10)]

/-- Decimal digits of a natural number, most significant first. -/
def natChars (n : Nat) : List Char := natCharsAux (n + 1) n

/-- Decimal representation of an integer, as printed by JSON.stringify on an
integral number. -/
def intChars (n : Int) : List Char :=
  if n < 0 then '-' :: natChars n.natAbs else natChars n.toNat

/-- Step function accumulating the value of a decimal digit run. -/
def digitStep (a : Nat) (c : Char) : Nat := a * 10 + (c.toNat - 48)

/-- Consume a leading run of decimal digits, accumulating its value. -/
def parseDigits : List Char → Nat → Nat × List Char
  | [], a => (a, [])
  | c :: r, a => if c.isDigit then parseDigits r (digitStep a c) else (a, c :: r)

/-- Whether the first character (if any) is not a decimal digit; a decimal
run in the input is only parsed back correctly when what follows cannot
extend it. -/
def headNonDigit : List Char → Prop
  | [] => True
  | c :: _ => c.isDigit = false

/-! ## JSON values

JSON values as produced by the platform's JSON.parse.  Numbers are modelled
as integers: every numeric field of the analyzer schema is an integral
score in the range zero to one hundred, and JSON.stringify prints integral
doubles as plain decimal digit runs. -/

/-! A JSON value.  Arrays and objects carry their children through the two
companion chain types, so that every function on values is plain structural
recursion (executable and kernel-reducible). -/
mutual
inductive JsonValue where
  | null : JsonValue
  | bool (b : Bool) : JsonValue
  | num (n : Int) : JsonValue
  | str (s : String) : JsonValue
  | arr (elems : JsonElems) : JsonValue
  | obj (fields : JsonFields) : JsonValue
inductive JsonElems where
  | nil : JsonElems
  | cons (head : JsonValue) (tail : JsonElems) : JsonElems
inductive JsonFields where
  | nil : JsonFields
  | cons (key : String) (val : JsonValue) (tail : JsonFields) : JsonFields
end

/-- Build an element chain from a list. -/
def JsonElems.ofList : List JsonValue → JsonElems
  | [] => .nil
  | v :: vs => .cons v (JsonElems.ofList vs)

/-- Build a field chain from an association list. -/
def JsonFields.ofList : List (String × JsonValue) → JsonFields
  | [] => .nil
  | (k, v) :: fs => .cons k v (JsonFields.ofList fs)

/-- Escape one character the way JSON.stringify escapes string contents:
quote, backslash and the named control escapes get a backslash form, other
control characters get a four-digit hexadecimal escape, everything else is
emitted verbatim. -/
def escChar (c : Char) : List Char :=
  if c = '"' then ['\\', '"']
  else if c = '\\' then ['\\', '\\']
  else if c = Char.ofNat 8 then ['\\', 'b']
  else if c = Char.ofNat 9 then ['\\', 't']
  else if c = Char.ofNat 10 then ['\\', 'n']
  else if c = Char.ofNat 12 then ['\\', 'f']
  else if c = Char.ofNat 13 then ['\\', 'r']
  else if c.toNat < 32 then ['\\', 'u', '0', '0', hexChar (c.toNat / 16), hexChar (c.toNat % 16)]
  else [c]

/-- Escape every character of a string body. -/
def escChars (l : List Char) : List Char := l.flatMap escChar

/-- A JSON string literal: quoted, escaped body. -/
def strQuote (s : String) : List Char := '"' :: escChars s.toList ++ ['"']

/-! JSON serializer following JSON.stringify: no whitespace, object fields
in order.  `strE` renders what follows an array element (closing bracket or
comma and the rest), `strM` likewise for object members. -/
mutual
def strV : JsonValue → List Char
  | .null => "null".toList
  | .bool true => "true".toList
  | .bool false => "false".toList
  | .num n => intChars n
  | .str s => strQuote s
  | .arr .nil => ['[', ']']
  | .arr (.cons x xs) => '[' :: (strV x ++ strE xs)
  | .obj .nil => [lbrace, rbrace]
  | .obj (.cons k v fs) => lbrace :: (strQuote k ++ ':' :: (strV v ++ strM fs))
def strE : JsonElems → List Char
  | .nil => [']']
  | .cons x xs => ',' :: (strV x ++ strE xs)
def strM : JsonFields → List Char
  | .nil => [rbrace]
  | .cons k v fs => ',' :: (strQuote k ++ ':' :: (strV v ++ strM fs))
end

/-- JSON.stringify of a value, as a character list. -/
def jsonStringify (v : JsonValue) : List Char := strV v

/-! Recursion depth the parser needs for a value (its parse weight). -/
mutual
def pwV : JsonValue → Nat
  | .null => 1
  | .bool _ => 1
  | .num _ => 1
  | .str _ => 1
  | .arr es => 1 + pwE es
  | .obj fs => 1 + pwM fs
def pwE : JsonElems → Nat
  | .nil => 0
  | .cons x xs => max (pwV x) (1 + pwE xs)
def pwM : JsonFields → Nat
  | .nil => 0
  | .cons _ v fs => max (pwV v) (1 + pwM fs)
end

/-- Unescape a single-character JSON escape. -/
def unescCh (e : Char) : Option Char :=
  if e = '"' then some '"'
  else if e = '\\' then some '\\'
  else if e = '/' then some '/'
  else if e = 'b' then some (Char.ofNat 8)
  else if e = 't' then some (Char.ofNat 9)
  else if e = 'n' then some (Char.ofNat 10)
  else if e = 'f' then some (Char.ofNat 12)
  else if e = 'r' then some (Char.ofNat 13)
  else none

/-- Parse the body of a JSON string literal after the opening quote, up to
and including the closing quote.  Unescaped control characters are
rejected, as JSON.parse rejects them; a four-digit escape denoting a lone
surrogate is rejected (such a code unit is not a scalar value and never
occurs in this app's data).  The fuel argument only needs to exceed the
number of characters represented. -/
def parseStrAux : Nat → List Char → Option (List Char × List Char)
  | 0, _ => none
  | _ + 1, [] => none
  | f + 1, c :: r =>
    if c = '"' then some ([], r)
    else if c = '\\' then
      match r with
      | [] => none
      | e :: r1 =>
        if e = 'u' then
          match r1 with
          | h1 :: h2 :: h3 :: h4 :: r2 =>
            (parseHexDigit h1).bind fun a =>
            (parseHexDigit h2).bind fun b =>
            (parseHexDigit h3).bind fun cₕ =>
            (parseHexDigit h4).bind fun d =>
            let m := a * 4096 + b * 256 + cₕ * 16 + d
            if m < 55296 ∨ 57344 ≤ m then
              (parseStrAux f r2).map fun p => (Char.ofNat m :: p.1, p.2)
            else none
          | _ => none
        else
          match unescCh e with
          | some uc => (parseStrAux f r1).map fun p => (uc :: p.1, p.2)
          | none => none
    else if c.toNat < 32 then none
    else (parseStrAux f r).map fun p => (c :: p.1, p.2)

/-- Case split on the head of a character list, failing on the empty list. -/
def headCase (l : List Char) (k : Char → List Char → Option α) : Option α :=
  match l with
  | [] => none
  | c :: r => k c r

/-- Continue only when the value is an array. -/
def arrCase (v : JsonValue) (k : JsonElems → Option α) : Option α :=
  match v with
  | .arr vs => k vs
  | _ => none

/-- Continue only when the value is an object. -/
def objCase (v : JsonValue) (k : JsonFields → Option α) : Option α :=
  match v with
  | .obj fs => k fs
  | _ => none

/-- Expect the given literal characters, then yield the given value. -/
def expectLit (r : List Char) (lit : List Char) (v : JsonValue) :
    Option (JsonValue × List Char) :=
  match lit with
  | [] => some (v, r)
  | c :: lit1 => headCase r fun c1 r1 => if c1 = c then expectLit r1 lit1 v else none

/-- Fueled JSON parser for the whitespace-free fragment JSON.stringify
emits.  JSON.parse also accepts inter-token whitespace and fractional or
exponent number forms; neither occurs in any payload this app produces or
that the claims analyze, and number syntax here is restricted to optionally
signed digit runs.  An array or object tail after a comma is parsed by
re-prefixing the opening bracket, so the recursion is plain recursion on
the fuel (one consequence, irrelevant to every payload in play: a trailing
comma directly before a closing bracket is accepted). -/
def parseVal : Nat → List Char → Option (JsonValue × List Char)
  | 0, _ => none
  | f + 1, cs =>
    headCase cs fun c r =>
    if c = lbrace then
      headCase r fun c1 r1 =>
      if c1 = rbrace then some (.obj .nil, r1)
      else if c1 = '"' then
        (parseStrAux (r1.length + 1) r1).bind fun kp =>
        headCase kp.2 fun cc r3 =>
        if cc = ':' then
          (parseVal f r3).bind fun vp =>
          headCase vp.2 fun c4 r5 =>
          if c4 = rbrace then some (.obj (.cons (String.mk kp.1) vp.1 .nil), r5)
          else if c4 = ',' then
            (parseVal f (lbrace :: r5)).bind fun wp =>
            objCase wp.1 fun fs => some (.obj (.cons (String.mk kp.1) vp.1 fs), wp.2)
          else none
        else none
      else none
    else if c = '[' then
      headCase r fun c1 r1 =>
      if c1 = ']' then some (.arr .nil, r1)
      else
        (parseVal f (c1 :: r1)).bind fun vp =>
        headCase vp.2 fun c2 r3 =>
        if c2 = ']' then some (.arr (.cons vp.1 .nil), r3)
        else if c2 = ',' then
          (parseVal f ('[' :: r3)).bind fun wp =>
          arrCase wp.1 fun vs => some (.arr (.cons vp.1 vs), wp.2)
        else none
    else if c = '"' then
      (parseStrAux (r.length + 1) r).map fun p => (.str (String.mk p.1), p.2)
    else if c = 'n' then expectLit r ['u', 'l', 'l'] .null
    else if c = 't' then expectLit r ['r', 'u', 'e'] (.bool true)
    else if c = 'f' then expectLit r ['a', 'l', 's', 'e'] (.bool false)
    else if c = '-' then
      headCase r fun c1 r1 =>
      if c1.isDigit then
        let p := parseDigits r1 (c1.toNat - 48)
        some (.num (-(p.1 : Int)), p.2)
      else none
    else if c.isDigit then
      let p := parseDigits r (c.toNat - 48)
      some (.num ((p.1 : Int)), p.2)
    else none

/-- JSON.parse on a character list: the whole input must be consumed. -/
def jsonParse (cs : List Char) : Option JsonValue :=
  match parseVal (cs.length + 1) cs with
  | some (v, []) => some v
  | _ => none

deriving instance DecidableEq for JsonValue, JsonElems, JsonFields

/-! ## Base64 (window.btoa and window.atob)

`btoa` maps a byte string (characters 0 to 255) to its base64 encoding;
`atob` implements the forgiving-base64 decode: ASCII whitespace is removed,
then when the length is a multiple of four up to two trailing padding
equals signs are dropped, a remaining length of one modulo four or any
character outside the alphabet is an error, and trailing bits of a final
partial group are discarded. -/

/-- The base64 alphabet in order. -/
def b64Alphabet : List Char :=
  "ABCDEFGHIJKLMNOPQRSTUVWXYZabcdefghijklmnopqrstuvwxyz0123456789+/".toList

/-- Character for a six-bit value. -/
def b64Char (n : Nat) : Char := b64Alphabet.getD n 'A'

/-- Six-bit value of an alphabet character. -/
def b64Val (c : Char) : Option Nat :=
  let i := b64Alphabet.indexOf c
  if i < 64 then some i else none

/-- Is the character ASCII whitespace (as stripped by forgiving-base64)? -/
def isAsciiWs (c : Char) : Bool :=
  c = ' ' || c = Char.ofNat 9 || c = Char.ofNat 10 || c = Char.ofNat 12 || c = Char.ofNat 13

/-- Padded base64 encoding of a byte list (btoa's output). -/
def btoaCore : List Nat → List Char
  | [] => []
  | [b0] => [b64Char (b0 / 4), b64Char (b0 % 4 * 16), '=', '=']
  | [b0, b1] => [b64Char (b0 / 4), b64Char (b0 % 4 * 16 + b1 / 16), b64Char (b1 % 16 * 4), '=']
  | b0 :: b1 :: b2 :: rest =>
      b64Char (b0 / 4) :: b64Char (b0 % 4 * 16 + b1 / 16) :: b64Char (b1 % 16 * 4 + b2 / 64) ::
      b64Char (b2 % 64) :: btoaCore rest

/-- The same encoding without the padding characters. -/
def btoaU : List Nat → List Char
  | [] => []
  | [b0] => [b64Char (b0 / 4), b64Char (b0 % 4 * 16)]
  | [b0, b1] => [b64Char (b0 / 4), b64Char (b0 % 4 * 16 + b1 / 16), b64Char (b1 % 16 * 4)]
  | b0 :: b1 :: b2 :: rest =>
      b64Char (b0 / 4) :: b64Char (b0 % 4 * 16 + b1 / 16) :: b64Char (b1 % 16 * 4 + b2 / 64) ::
      b64Char (b2 % 64) :: btoaU rest

/-- Drop up to two trailing padding characters. -/
def dropTrail (cs : List Char) : List Char :=
  match cs.reverse with
  | c1 :: c2 :: r =>
    if c1 = '=' then (if c2 = '=' then r.reverse else (c2 :: r).reverse) else cs
  | c1 :: r => if c1 = '=' then r.reverse else cs
  | [] => cs

/-- Decode a whitespace-free, padding-free base64 string into bytes. -/
def atobCore : List Char → Option (List Nat)
  | [] => some []
  | [c0, c1] =>
      (b64Val c0).bind fun s0 => (b64Val c1).bind fun s1 =>
      some [s0 * 4 + s1 / 16]
  | [c0, c1, c2] =>
      (b64Val c0).bind fun s0 => (b64Val c1).bind fun s1 => (b64Val c2).bind fun s2 =>
      some [s0 * 4 + s1 / 16, s1 % 16 * 16 + s2 / 4]
  | c0 :: c1 :: c2 :: c3 :: rest =>
      (b64Val c0).bind fun s0 => (b64Val c1).bind fun s1 => (b64Val c2).bind fun s2 =>
      (b64Val c3).bind fun s3 =>
      (atobCore rest).map fun bs =>
        (s0 * 4 + s1 / 16) :: (s1 % 16 * 16 + s2 / 4) :: (s2 % 4 * 64 + s3) :: bs
  | _ => none

/-- Forgiving-base64 decode (window.atob), on character lists. -/
def atobChars (cs : List Char) : Option (List Nat) :=
  let cs1 := cs.filter (fun c => !isAsciiWs c)
  let cs2 := if cs1.length % 4 = 0 then dropTrail cs1 else cs1
  atobCore cs2

/-! ## UTF-8

The share pipeline converts between strings and byte lists through UTF-8:
`unescape(encodeURIComponent(s))` produces the byte string of the UTF-8
encoding of `s`, and `decodeURIComponent(escape(b))` inverts it, throwing
on malformed UTF-8.  The decoder below is strict: overlong forms,
surrogate code points and out-of-range values are rejected. -/

/-- UTF-8 bytes of one scalar value. -/
def utf8EncodeChar (c : Char) : List Nat :=
  let n := c.toNat
  if n < 128 then [n]
  else if n < 2048 then [192 + n / 64, 128 + n % 64]
  else if n < 65536 then [224 + n / 4096, 128 + n / 64 % 64, 128 + n % 64]
  else [240 + n / 262144, 128 + n / 4096 % 64, 128 + n / 64 % 64, 128 + n % 64]

/-- UTF-8 bytes of a character list. -/
def utf8Encode (l : List Char) : List Nat := l.flatMap utf8EncodeChar

/-- Strict fueled UTF-8 decoder. -/
def utf8Decode : Nat → List Nat → Option (List Char)
  | 0, _ => none
  | _ + 1, [] => some []
  | f + 1, b :: r =>
    if b < 128 then (utf8Decode f r).map fun cs => Char.ofNat b :: cs
    else if b < 194 then none
    else if b < 224 then
      match r with
      | b1 :: r1 =>
        if 128 ≤ b1 ∧ b1 < 192 then
          (utf8Decode f r1).map fun cs => Char.ofNat ((b - 192) * 64 + (b1 - 128)) :: cs
        else none
      | [] => none
    else if b < 240 then
      match r with
      | b1 :: b2 :: r2 =>
        if (128 ≤ b1 ∧ b1 < 192) ∧ (128 ≤ b2 ∧ b2 < 192) then
          let n := (b - 224) * 4096 + (b1 - 128) * 64 + (b2 - 128)
          if 2048 ≤ n ∧ (n < 55296 ∨ 57344 ≤ n) then
            (utf8Decode f r2).map fun cs => Char.ofNat n :: cs
          else none
        else none
      | _ => none
    else if b < 245 then
      match r with
      | b1 :: b2 :: b3 :: r3 =>
        if (128 ≤ b1 ∧ b1 < 192) ∧ (128 ≤ b2 ∧ b2 < 192) ∧ (128 ≤ b3 ∧ b3 < 192) then
          let n := (b - 240) * 262144 + (b1 - 128) * 4096 + (b2 - 128) * 64 + (b3 - 128)
          if 65536 ≤ n ∧ n < 1114112 then
            (utf8Decode f r3).map fun cs => Char.ofNat n :: cs
          else none
        else none
      | _ => none
    else none

/-- UTF-8 decoding of a byte list. -/
def utf8DecodeBytes (bs : List Nat) : Option (List Char) := utf8Decode (bs.length + 1) bs

/-! ## Application data model

Translated from types.ts, geminiService.ts, storageService and the
component state of App.tsx. -/

/-- The session states (AppState in types.ts). -/
inductive AppState where
  | IDLE : AppState
  | RECORDING : AppState
  | PROCESSING : AppState
  | RESULT : AppState
  | ERROR : AppState
  | ADMIN : AppState
deriving DecidableEq

/-- The five-dimension metric set (VoiceMetrics in types.ts); every value is
an integral score between 0 and 100. -/
structure VoiceMetrics where
  clarity : Int
  charisma : Int
  uniqueness : Int
  stability : Int
  warmth : Int
deriving DecidableEq

/-- TechnicalDetails in types.ts. -/
structure TechnicalDetails where
  pitchRange : String
  speakingPace : String
  expressiveness : String
deriving DecidableEq

/-- VoiceAnalysisResult, with every field the analyzer schema
(geminiService.ts responseSchema) declares required. -/
structure VoiceAnalysisResult where
  overallScore : Int
  voiceArchetype : String
  estimatedAge : String
  estimatedWeight : String
  isPinched : Bool
  roast : String
  encouragement : String
  pros : List String
  cons : List String
  similarVoice : String
  metrics : VoiceMetrics
  technical : TechnicalDetails
deriving DecidableEq

/-- VoiceRecord in types.ts (the persisted LogRecord): the analysis is the
runtime analysis object, kept here as its JSON value. -/
structure VoiceRecord where
  id : String
  timestamp : Nat
  analysis : JsonValue
  ip : Option String
  userAgent : Option String
deriving DecidableEq

/-- JSON image of a metric set, fields in schema order. -/
def metricsJson (m : VoiceMetrics) : JsonValue :=
  .obj (.cons "clarity" (.num m.clarity) (.cons "charisma" (.num m.charisma)
    (.cons "uniqueness" (.num m.uniqueness) (.cons "stability" (.num m.stability)
    (.cons "warmth" (.num m.warmth) .nil)))))

/-- JSON image of the technical triple, fields in schema order. -/
def technicalJson (t : TechnicalDetails) : JsonValue :=
  .obj (.cons "pitchRange" (.str t.pitchRange) (.cons "speakingPace" (.str t.speakingPace)
    (.cons "expressiveness" (.str t.expressiveness) .nil)))

/-- Build a JSON array of strings. -/
def strArr : List String → JsonElems
  | [] => .nil
  | s :: rest => .cons (.str s) (strArr rest)

/-- JSON image of a typed analysis object, fields in the analyzer schema's
order. -/
def resultJson (a : VoiceAnalysisResult) : JsonValue :=
  .obj (.cons "overallScore" (.num a.overallScore)
    (.cons "voiceArchetype" (.str a.voiceArchetype)
    (.cons "estimatedAge" (.str a.estimatedAge)
    (.cons "estimatedWeight" (.str a.estimatedWeight)
    (.cons "isPinched" (.bool a.isPinched)
    (.cons "roast" (.str a.roast)
    (.cons "encouragement" (.str a.encouragement)
    (.cons "pros" (.arr (strArr a.pros))
    (.cons "cons" (.arr (strArr a.cons))
    (.cons "similarVoice" (.str a.similarVoice)
    (.cons "metrics" (metricsJson a.metrics)
    (.cons "technical" (technicalJson a.technical) .nil))))))))))))

/-- The addressable location (window.location), with the share query
parameter already extracted, as returned by
`new URLSearchParams(window.location.search).get('share')`. -/
structure Loc where
  pathname : String
  share : Option String
  hash : String
deriving DecidableEq

/-- The bare root location, as produced by replaceState or pushState of a
plain slash. -/
def rootLoc : Loc := ⟨"/", none, ""⟩

/-- MediaRecorder state (only the two values this app observes). -/
inductive MRState where
  | recording : MRState
  | inactive : MRState
deriving DecidableEq

/-- The session: the component state of App.tsx together with its refs and
the location it observes. -/
structure Session where
  appState : AppState
  analysis : Option JsonValue
  audioBlob : Option (List Nat)
  stream : Option (List Bool)
  errorMsg : String
  timer : Nat
  isCopied : Bool
  recorder : Option MRState
  intervalActive : Bool
  location : Loc
deriving DecidableEq

/-! ## JavaScript dynamic field access and truthiness -/

/-- Last binding of a key in an object's fields, matching JSON.parse's
duplicate-key behaviour (later keys overwrite earlier ones). -/
def lookupLastField (k : String) : JsonFields → Option JsonValue
  | .nil => none
  | .cons k1 v rest =>
    match lookupLastField k rest with
    | some r => some r
    | none => if k1 = k then some v else none

/-- JavaScript property access on a decoded JSON value: on null it throws a
TypeError (modelled as an error), on an object it returns the binding of
the key, on any other value it yields undefined (modelled as none). -/
def jsGet (j : JsonValue) (k : String) : Except Unit (Option JsonValue) :=
  match j with
  | .null => .error ()
  | .obj fs => .ok (lookupLastField k fs)
  | _ => .ok none

/-- JavaScript truthiness of a possibly-undefined decoded JSON value. -/
def truthy : Option JsonValue → Bool
  | none => false
  | some .null => false
  | some (.bool b) => b
  | some (.num n) => n != 0
  | some (.str s) => s != ""
  | some (.arr _) => true
  | some (.obj _) => true

/-! ## The share pipeline (handleShare and checkRoute) -/

/-- The encoded share payload handleShare places in the link (App.tsx lines
170 to 187): `window.btoa(unescape(encodeURIComponent(JSON.stringify(analysis))))`,
the base64 of the UTF-8 bytes of the JSON text.  It is appended to the URL
as a raw query value with no further URL escaping. -/
def shareEncode (j : JsonValue) : String :=
  String.mk (btoaCore (utf8Encode (jsonStringify j)))

/-- What URLSearchParams yields for a raw query value: form-urlencoded
decoding turns every plus sign into a space.  (Percent decoding is omitted
from the model: base64 output, the only content the app itself places in
the share parameter, never contains a percent sign.) -/
def formDecode (s : String) : String :=
  String.mk (s.toList.map fun c => if c = '+' then ' ' else c)

/-- The decode inside checkRoute's try block (App.tsx line 56):
`JSON.parse(decodeURIComponent(escape(window.atob(shareData))))`.  The atob
inverts base64 into bytes, the escape and decodeURIComponent pair decodes
those bytes as UTF-8, and the result is parsed as JSON; a failure at any
stage is the exception the catch swallows. -/
def decodeShare (d : String) : Option JsonValue :=
  (atobChars d.toList).bind fun bytes =>
  (utf8DecodeBytes bytes).bind fun chars =>
  jsonParse chars

/-- Evaluation of `parsedAnalysis.overallScore && parsedAnalysis.metrics`
(App.tsx line 59), still inside the try block: property access on a decoded
null throws (and is caught by the same catch), otherwise the test is plain
truthiness with short-circuit. -/
def adoptCheck (j : JsonValue) : Except Unit Bool :=
  (jsGet j "overallScore").bind fun a =>
  if truthy a then (jsGet j "metrics").map truthy
  else .ok false

/-- Does the location carry the admin marker (App.tsx lines 42 and 43)? -/
def isAdminLoc (l : Loc) : Bool :=
  l.pathname = "/admin" || l.hash = "#/admin" || l.hash = "#admin"

/-- One invocation of checkRoute (App.tsx lines 39 to 69) on the current
session: an admin marker wins and switches to Admin; otherwise, when a
share parameter is present and the session is Idle, it is decoded inside a
try block; a decoded value passing the truthiness test on overallScore and
metrics is adopted into Result; a falsy one is silently ignored with the
location untouched; a thrown decode or property error is caught and the
location replaced with the bare root. -/
def checkRoute (s : Session) : Session :=
  if isAdminLoc s.location then { s with appState := .ADMIN }
  else
    match s.location.share with
    | none => s
    | some d =>
      if s.appState = .IDLE then
        match decodeShare d with
        | none => { s with location := rootLoc }
        | some j =>
          match adoptCheck j with
          | .error _ => { s with location := rootLoc }
          | .ok true => { s with analysis := some j, appState := .RESULT }
          | .ok false => s
      else s

/-! ## Recording (startRecording, the interval callback, stopRecording) -/

/-- startRecording after the microphone was granted (App.tsx lines 80 to
114): stream attached, recorder created and started, state Recording, timer
reset to zero, interval scheduled. -/
def startRecordingOk (s : Session) (tracks : List Bool) : Session :=
  { s with stream := some tracks, recorder := some .recording,
           appState := .RECORDING, timer := 0, intervalActive := true }

/-- startRecording when microphone access is denied (App.tsx lines 115 to
119). -/
def startRecordingDenied (s : Session) : Session :=
  { s with errorMsg := "Microphone access denied. Please check permissions.",
           appState := .ERROR }

/-- stopRecording (App.tsx lines 123 to 134): stop the recorder unless it
is already inactive, clear the timer interval, stop every stream track, and
enter Processing. -/
def stopRecording (s : Session) : Session :=
  { s with
    recorder :=
      match s.recorder with
      | some st => if st ≠ .inactive then some .inactive else some st
      | none => none
    intervalActive := false
    stream := s.stream.map (fun tracks => tracks.map fun _ => false)
    appState := .PROCESSING }

/-- One tick of the interval callback scheduled by startRecording (App.tsx
lines 105 to 113): once the interval has been cleared nothing runs any
more; otherwise the functional update receives the previous timer value,
and when it has already reached 15 it calls stopRecording and returns the
previous value unchanged, else it increments. -/
def timerTick (s : Session) : Session :=
  if !s.intervalActive then s
  else if 15 ≤ s.timer then stopRecording s
  else { s with timer := s.timer + 1 }

/-! ## The remote analyzer client (geminiService.ts) -/

/-- Environment of one analyzeVoice call: the outcome of the remote
exchange.  An error is a rejected encoding or network call; otherwise the
response carries its text, which may be absent. -/
structure AnalyzerEnv where
  response : Except Unit (Option String)

/-- analyzeVoice (geminiService.ts lines 74 to 152): any failure of the
blob encoding or of the remote call rethrows out of the catch; an absent or
empty response text throws; the text is then JSON.parsed and returned as
is.  No validation of the required schema fields happens on the client: the
`as VoiceAnalysisResult` cast is compile-time only. -/
def analyzeVoice (env : AnalyzerEnv) : Except Unit JsonValue :=
  match env.response with
  | .error _ => .error ()
  | .ok none => .error ()
  | .ok (some text) =>
    if text = "" then .error ()
    else
      match jsonParse text.toList with
      | none => .error ()
      | some j => .ok j

/-- The required top-level fields of the analyzer schema (geminiService.ts
line 71). -/
def requiredFields : List String :=
  ["overallScore", "voiceArchetype", "estimatedAge", "estimatedWeight", "isPinched",
   "roast", "encouragement", "pros", "cons", "similarVoice", "metrics", "technical"]

/-- Does a decoded payload carry every required top-level schema field? -/
def hasAllRequiredFields (j : JsonValue) : Bool :=
  requiredFields.all fun k =>
    match jsGet j k with
    | .ok (some _) => true
    | _ => false

/-! ## Local persistence (storageService) -/

/-- Environment of one saveRecord call: outcomes of the database open, the
IP lookup and the store.add write. -/
structure PersistEnv where
  dbOpen : Except Unit Unit
  ipLookup : Except Unit String
  storeAdd : Except Unit Unit

/-- getIP (storageService lines 36 to 44): a failing lookup is caught
inside and replaced by the placeholder, so this call never rejects. -/
def getIP (e : PersistEnv) : String :=
  match e.ipLookup with
  | .ok ip => ip
  | .error _ => "Unknown IP"

/-- Observable outcome of the promise saveRecord returns. -/
inductive SaveOutcome where
  | resolved (stored : Bool) : SaveOutcome
  | rejected : SaveOutcome
deriving DecidableEq

/-- saveRecord (storageService lines 47 to 72).  The try/catch catches a
rejection of the awaited initDB() (swallowed: resolved with nothing
stored), and getIP never rejects; but the storage write is
`return new Promise(...)` without an await, so when store.add fires onerror
that rejection is adopted by saveRecord's own promise after the try block
has already been exited: the catch (and its comment, "Don't throw, just log
error so app flow continues") never sees it, and saveRecord rejects. -/
def saveRecord (e : PersistEnv) : SaveOutcome :=
  match e.dbOpen with
  | .error _ => .resolved false
  | .ok _ =>
    match e.storeAdd with
    | .ok _ => .resolved true
    | .error _ => .rejected

/-- getAllRecords (storageService lines 75 to 95): on success the stored
rows are sorted newest first with the comparator
`(a, b) => b.timestamp - a.timestamp`; on failure the catch returns the
empty list. -/
def getAllRecords (outcome : Except Unit (List VoiceRecord)) : List VoiceRecord :=
  match outcome with
  | .ok results => List.insertionSort (fun a b => b.timestamp ≤ a.timestamp) results
  | .error _ => []

/-! ## handleAnalysis and resetApp (App.tsx) -/

/-- Environment of one handleAnalysis run. -/
structure AnalysisEnv where
  analyzer : AnalyzerEnv
  persist : PersistEnv

/-- handleAnalysis (App.tsx lines 137 to 151): on analyzeVoice success the
analysis is stored, saveRecord is awaited, and the session enters Result;
any rejection along the way (analyzeVoice itself, or a saveRecord
rejection) is caught and the session enters Error with the generic retry
message. -/
def handleAnalysis (env : AnalysisEnv) (s : Session) : Session :=
  match analyzeVoice env.analyzer with
  | .error _ =>
    { s with errorMsg := "Analysis failed. Please try again.", appState := .ERROR }
  | .ok result =>
    match saveRecord env.persist with
    | .rejected =>
      { s with analysis := some result,
               errorMsg := "Analysis failed. Please try again.", appState := .ERROR }
    | .resolved _ => { s with analysis := some result, appState := .RESULT }

/-- Was a LogRecord actually stored during handleAnalysis?  The record is
constructed and written only when analyzeVoice succeeded and both the
database open and the store.add write went through. -/
def recordStored (env : AnalysisEnv) : Bool :=
  match analyzeVoice env.analyzer, saveRecord env.persist with
  | .ok _, .resolved true => true
  | _, _ => false

/-- Does the first list occur as a contiguous run at the front of the
second? -/
def charsStartWith : List Char → List Char → Bool
  | [], _ => true
  | _ :: _, [] => false
  | n :: ns, h :: hs => n = h && charsStartWith ns hs

/-- Does the needle occur contiguously anywhere in the haystack? -/
def charsContain (needle : List Char) : List Char → Bool
  | [] => needle.isEmpty
  | h :: hs => charsStartWith needle (h :: hs) || charsContain needle hs

/-- JavaScript String.prototype.includes. -/
def strIncludes (hay needle : String) : Bool := charsContain needle.toList hay.toList

/-- resetApp (App.tsx lines 153 to 168): the location is cleaned (push to
the bare root when an admin marker occurs anywhere in the hash or pathname,
otherwise push to the pathname alone, which clears query and hash), the
state returns to Idle, and the analysis, audio, stream, error message and
copied marker are cleared.  The elapsed-seconds timer is not touched. -/
def resetApp (s : Session) : Session :=
  { s with
    location :=
      if strIncludes s.location.hash "admin" || strIncludes s.location.pathname "admin" then
        rootLoc
      else
        ⟨s.location.pathname, none, ""⟩
    appState := .IDLE
    analysis := none
    audioBlob := none
    stream := none
    errorMsg := ""
    isCopied := false }

/-- handleShare (App.tsx lines 170 to 187): with no analysis present
nothing happens; otherwise the share URL, the base location with the
encoded payload as its share query parameter, is written to the clipboard
and the copied acknowledgment set. -/
def handleShare (s : Session) : Session × Option String :=
  match s.analysis with
  | none => (s, none)
  | some j =>
    ({ s with isCopied := true },
     some (s.location.pathname ++ "?share=" ++ shareEncode j))

/-! ## Concrete sessions and environments used by the claim checks -/

/-- A fresh idle session at the bare root. -/
def idleSession : Session := ⟨.IDLE, none, none, none, "", 0, false, none, false, rootLoc⟩

/-- Sample metric set. -/
def metricsEx : VoiceMetrics := ⟨80, 70, 60, 75, 65⟩

/-- Sample technical triple. -/
def technicalEx : TechnicalDetails := ⟨"Low Baritone", "Measured", "Dynamic"⟩

/-- A fully populated analysis whose overall score is 74. -/
def sampleResult : VoiceAnalysisResult :=
  ⟨74, "The Anchor", "30s", "Medium build", false, "Confident but hurried.",
   "Keep practicing.", ["clear diction"], ["rushed pacing"], "A news anchor",
   metricsEx, technicalEx⟩

/-- The same analysis with overall score 0 (a legal schema value). -/
def zeroScoreResult : VoiceAnalysisResult :=
  ⟨0, "The Anchor", "30s", "Medium build", false, "Confident but hurried.",
   "Keep practicing.", ["clear diction"], ["rushed pacing"], "A news anchor",
   metricsEx, technicalEx⟩

/-- An idle session that has just opened the share link produced for
`zeroScoreResult`. -/
def zeroScoreShareSession : Session :=
  { idleSession with
    location := ⟨"/", some (formDecode (shareEncode (resultJson zeroScoreResult))), ""⟩ }

/-- An idle session that has just opened the share link produced for
`sampleResult`. -/
def sampleShareSession : Session :=
  { idleSession with
    location := ⟨"/", some (formDecode (shareEncode (resultJson sampleResult))), ""⟩ }

/-- An idle session whose location carries an undecodable share payload. -/
def malformedShareSession : Session :=
  { idleSession with location := ⟨"/", some "!!!", ""⟩ }

/-- An idle session whose share payload decodes to an object with a zero
overall score and a metric set. -/
def falsyShareSession : Session :=
  { idleSession with
    location :=
      ⟨"/", some (String.mk (btoaCore (utf8Encode
        "\x7b\"overallScore\":0,\"metrics\":\x7b\"clarity\":80\x7d\x7d".toList))), ""⟩ }

/-- A session already showing a result, with a share payload still present
in its location. -/
def resultWithShareSession : Session :=
  ⟨.RESULT, some (resultJson sampleResult), some [1, 2, 3], some [false], "", 9, false,
   some .inactive, false, ⟨"/", some (shareEncode (resultJson sampleResult)), ""⟩⟩

/-- A successful analyzer response carrying a score-82 payload. -/
def response82 : AnalyzerEnv := ⟨.ok (some "\x7b\"overallScore\":82\x7d")⟩

/-- Analyzer succeeded, database opened, but the store.add write fails. -/
def envWriteFail : AnalysisEnv := ⟨response82, ⟨.ok (), .ok "203.0.113.7", .error ()⟩⟩

/-- Analyzer succeeded, the IP lookup fails, the write succeeds. -/
def envIpFail : AnalysisEnv := ⟨response82, ⟨.ok (), .error (), .ok ()⟩⟩

/-- Analyzer succeeded with everything else healthy. -/
def envAllOk : AnalysisEnv := ⟨response82, ⟨.ok (), .ok "203.0.113.7", .ok ()⟩⟩

/-- Analyzer returned the parsable payload of an empty object, missing
every required field; persistence healthy. -/
def envEmptyPayload : AnalysisEnv :=
  ⟨⟨.ok (some "\x7b\x7d")⟩, ⟨.ok (), .ok "203.0.113.7", .ok ()⟩⟩

/-- A session in Result state with a nonzero elapsed-seconds counter. -/
def resultSession7 : Session :=
  ⟨.RESULT, some (resultJson sampleResult), some [1, 2], some [false], "", 7, true,
   some .inactive, false, ⟨"/", some (shareEncode (resultJson sampleResult)), ""⟩⟩

/-- A session in Error state with a nonzero elapsed-seconds counter. -/
def errorSession3 : Session :=
  ⟨.ERROR, none, some [1, 2], some [false], "Analysis failed. Please try again.", 3, false,
   some .inactive, false, rootLoc⟩

/-! Order instances for the record-sorting comparator. -/

instance : IsTotal VoiceRecord (fun a b => b.timestamp ≤ a.timestamp) :=
  ⟨fun a b => Nat.le_total b.timestamp a.timestamp⟩

instance : IsTrans VoiceRecord (fun a b => b.timestamp ≤ a.timestamp) :=
  ⟨fun _ _ _ h1 h2 => Nat.le_trans h2 h1⟩

/-! ## Proofs -/

theorem digitChar_isDigit : ∀ n, n < 10 → (digitChar n).isDigit = true := by decide

theorem digitChar_toNat : ∀ n, n < 10 → (digitChar n).toNat = 48 + n := by decide

theorem hexChar_val : ∀ n, n < 16 → parseHexDigit (hexChar n) = some n := by decide

theorem natCharsAux_spec : ∀ f n, n < f →
    natCharsAux f n ≠ [] ∧ (∀ c ∈ natCharsAux f n, c.isDigit = true) ∧
    (natCharsAux f n).foldl digitStep 0 = n := by
  intro f
  induction f with
  | zero => omega
  | succ f ih =>
    intro n hn
    by_cases h : n < 10
    · refine ⟨by simp [natCharsAux, h], ?_, ?_⟩
      · intro c hc
        simp [natCharsAux, h] at hc
        subst hc
        exact digitChar_isDigit n h
      · simp [natCharsAux, h, digitStep, digitChar_toNat n h]
    · have hd : n / 10 < f := by omega
      obtain ⟨hne, hdig, hval⟩ := ih (n / 10) hd
      refine ⟨by simp [natCharsAux, h], ?_, ?_⟩
      · intro c hc
        simp [natCharsAux, h] at hc
        rcases hc with hc | hc
        · exact hdig c hc
        · subst hc
          exact digitChar_isDigit _ (Nat.mod_lt n (by omega))
      · have h10 : n % 10 < 10 := Nat.mod_lt n (by omega)
        simp only [natCharsAux, if_neg h, List.foldl_append, hval, List.foldl_cons,
          List.foldl_nil, digitStep, digitChar_toNat _ h10]
        omega

theorem natChars_spec (n : Nat) :
    natChars n ≠ [] ∧ (∀ c ∈ natChars n, c.isDigit = true) ∧
    (natChars n).foldl digitStep 0 = n :=
  natCharsAux_spec (n + 1) n (by omega)

theorem parseDigits_append : ∀ ds acc rest, (∀ c ∈ ds, c.isDigit = true) → headNonDigit rest →
    parseDigits (ds ++ rest) acc = (ds.foldl digitStep acc, rest) := by
  intro ds
  induction ds with
  | nil =>
    intro acc rest _ hrest
    cases rest with
    | nil => simp [parseDigits]
    | cons c r => simpa [parseDigits, headNonDigit] using fun h => by simp_all [headNonDigit]
  | cons d ds ih =>
    intro acc rest hds hrest
    have hd : d.isDigit = true := hds d (by simp)
    simp only [List.cons_append, parseDigits, hd, if_pos, List.append_eq]
    rw [ih _ rest (fun c hc => hds c (by simp [hc])) hrest]
    simp

/-! ## Round trip of the serializer and the parser -/

theorem escChars_length_ge (l : List Char) : l.length ≤ (escChars l).length := by
  induction l with
  | nil => simp [escChars]
  | cons c l ih =>
    have : escChars (c :: l) = escChar c ++ escChars l := by simp [escChars]
    rw [this, List.length_append, List.length_cons]
    have hc : 1 ≤ (escChar c).length := by
      rw [escChar]
      repeat' split
      all_goals simp
    omega

theorem parseStrAux_esc : ∀ l f rest, l.length < f →
    parseStrAux f (escChars l ++ '"' :: rest) = some (l, rest) := by
  intro l
  induction l with
  | nil =>
    intro f rest h
    obtain ⟨g, rfl⟩ : ∃ g, f = g + 1 := ⟨f - 1, by omega⟩
    rfl
  | cons c l ih =>
    intro f rest h
    obtain ⟨g, rfl⟩ : ∃ g, f = g + 1 := ⟨f - 1, by omega⟩
    have hg : l.length < g := by simp at h; omega
    have hsplit : escChars (c :: l) = escChar c ++ escChars l := by
      simp [escChars]
    rw [hsplit, List.append_assoc]
    by_cases h1 : c = '"'
    · subst h1
      have step : ∀ X, parseStrAux (g + 1) ('\\' :: '"' :: X) =
          (parseStrAux g X).map (fun p => ('"' :: p.1, p.2)) := fun X => rfl
      rw [show escChar '"' = ['\\', '"'] from rfl, List.cons_append, List.cons_append,
        List.nil_append, step, ih g rest hg]
      rfl
    by_cases h2 : c = '\\'
    · subst h2
      have step : ∀ X, parseStrAux (g + 1) ('\\' :: '\\' :: X) =
          (parseStrAux g X).map (fun p => ('\\' :: p.1, p.2)) := fun X => rfl
      rw [show escChar '\\' = ['\\', '\\'] from rfl, List.cons_append, List.cons_append,
        List.nil_append, step, ih g rest hg]
      rfl
    by_cases h3 : c = Char.ofNat 8
    · subst h3
      have step : ∀ X, parseStrAux (g + 1) ('\\' :: 'b' :: X) =
          (parseStrAux g X).map (fun p => (Char.ofNat 8 :: p.1, p.2)) := fun X => rfl
      rw [show escChar (Char.ofNat 8) = ['\\', 'b'] from rfl, List.cons_append, List.cons_append,
        List.nil_append, step, ih g rest hg]
      rfl
    by_cases h4 : c = Char.ofNat 9
    · subst h4
      have step : ∀ X, parseStrAux (g + 1) ('\\' :: 't' :: X) =
          (parseStrAux g X).map (fun p => (Char.ofNat 9 :: p.1, p.2)) := fun X => rfl
      rw [show escChar (Char.ofNat 9) = ['\\', 't'] from rfl, List.cons_append, List.cons_append,
        List.nil_append, step, ih g rest hg]
      rfl
    by_cases h5 : c = Char.ofNat 10
    · subst h5
      have step : ∀ X, parseStrAux (g + 1) ('\\' :: 'n' :: X) =
          (parseStrAux g X).map (fun p => (Char.ofNat 10 :: p.1, p.2)) := fun X => rfl
      rw [show escChar (Char.ofNat 10) = ['\\', 'n'] from rfl, List.cons_append, List.cons_append,
        List.nil_append, step, ih g rest hg]
      rfl
    by_cases h6 : c = Char.ofNat 12
    · subst h6
      have step : ∀ X, parseStrAux (g + 1) ('\\' :: 'f' :: X) =
          (parseStrAux g X).map (fun p => (Char.ofNat 12 :: p.1, p.2)) := fun X => rfl
      rw [show escChar (Char.ofNat 12) = ['\\', 'f'] from rfl, List.cons_append, List.cons_append,
        List.nil_append, step, ih g rest hg]
      rfl
    by_cases h7 : c = Char.ofNat 13
    · subst h7
      have step : ∀ X, parseStrAux (g + 1) ('\\' :: 'r' :: X) =
          (parseStrAux g X).map (fun p => (Char.ofNat 13 :: p.1, p.2)) := fun X => rfl
      rw [show escChar (Char.ofNat 13) = ['\\', 'r'] from rfl, List.cons_append, List.cons_append,
        List.nil_append, step, ih g rest hg]
      rfl
    by_cases h8 : c.toNat < 32
    · have hhi : c.toNat / 16 < 16 := by omega
      have hlo : c.toNat % 16 < 16 := by omega
      have hesc : escChar c =
          ['\\', 'u', '0', '0', hexChar (c.toNat / 16), hexChar (c.toNat % 16)] := by
        rw [escChar, if_neg h1, if_neg h2, if_neg h3, if_neg h4, if_neg h5, if_neg h6,
          if_neg h7, if_pos h8]
      have step : ∀ X, parseStrAux (g + 1) ('\\' :: 'u' :: '0' :: '0' :: hexChar (c.toNat / 16) ::
          hexChar (c.toNat % 16) :: X) =
          ((parseHexDigit '0').bind fun a =>
           (parseHexDigit '0').bind fun b =>
           (parseHexDigit (hexChar (c.toNat / 16))).bind fun cₕ =>
           (parseHexDigit (hexChar (c.toNat % 16))).bind fun d =>
           let m := a * 4096 + b * 256 + cₕ * 16 + d
           if m < 55296 ∨ 57344 ≤ m then
             (parseStrAux g X).map fun p => (Char.ofNat m :: p.1, p.2)
           else none) := fun X => rfl
      rw [hesc]
      simp only [List.cons_append, List.nil_append, step,
        (by decide : parseHexDigit '0' = some 0), hexChar_val _ hhi, hexChar_val _ hlo,
        Option.some_bind]
      have hm : 0 * 4096 + 0 * 256 + c.toNat / 16 * 16 + c.toNat % 16 = c.toNat := by omega
      rw [hm, if_pos (by omega : c.toNat < 55296 ∨ 57344 ≤ c.toNat), ih g rest hg]
      simp [Char.ofNat_toNat]
    · have hesc : escChar c = [c] := by
        rw [escChar, if_neg h1, if_neg h2, if_neg h3, if_neg h4, if_neg h5, if_neg h6,
          if_neg h7, if_neg h8]
      have step : parseStrAux (g + 1) (c :: (escChars l ++ '"' :: rest)) =
          if c = '"' then some ([], escChars l ++ '"' :: rest)
          else if c = '\\' then
            (match escChars l ++ '"' :: rest with
            | [] => none
            | e :: r1 =>
              if e = 'u' then
                match r1 with
                | h1 :: h2 :: h3 :: h4 :: r2 =>
                  (parseHexDigit h1).bind fun a =>
                  (parseHexDigit h2).bind fun b =>
                  (parseHexDigit h3).bind fun cₕ =>
                  (parseHexDigit h4).bind fun d =>
                  let m := a * 4096 + b * 256 + cₕ * 16 + d
                  if m < 55296 ∨ 57344 ≤ m then
                    (parseStrAux g r2).map fun p => (Char.ofNat m :: p.1, p.2)
                  else none
                | _ => none
              else
                match unescCh e with
                | some uc => (parseStrAux g r1).map fun p => (uc :: p.1, p.2)
                | none => none)
          else if c.toNat < 32 then none
          else (parseStrAux g (escChars l ++ '"' :: rest)).map fun p => (c :: p.1, p.2) := rfl
      rw [hesc, List.cons_append, List.nil_append, step, if_neg h1, if_neg h2, if_neg h8,
        ih g rest hg]
      rfl

theorem pwV_pos : ∀ v, 1 ≤ pwV v := by
  intro v
  cases v <;> simp [pwV]

theorem isDigit_ne_specials (d : Char) (h : d.isDigit = true) :
    d ≠ lbrace ∧ d ≠ '[' ∧ d ≠ '"' ∧ d ≠ 'n' ∧ d ≠ 't' ∧ d ≠ 'f' ∧ d ≠ '-' ∧ d ≠ ']' ∧
    d ≠ ',' ∧ d ≠ rbrace := by
  refine ⟨?_, ?_, ?_, ?_, ?_, ?_, ?_, ?_, ?_, ?_⟩ <;> intro he <;> rw [he] at h <;> revert h <;> decide

theorem intChars_shape (n : Int) :
    ∃ c t, intChars n = c :: t ∧ (c = '-' ∨ c.isDigit = true) := by
  by_cases hn : n < 0
  · exact ⟨'-', natChars n.natAbs, by simp [intChars, hn], Or.inl rfl⟩
  · obtain ⟨hne, hdig, _⟩ := natChars_spec n.toNat
    cases h : natChars n.toNat with
    | nil => exact absurd h hne
    | cons c t =>
      refine ⟨c, t, by simp [intChars, hn, h], Or.inr ?_⟩
      exact hdig c (by rw [h]; simp)

theorem strV_head (v : JsonValue) : ∃ c t, strV v = c :: t ∧ c ≠ ']' := by
  cases v with
  | null => exact ⟨'n', _, rfl, by decide⟩
  | bool b =>
    cases b with
    | false => exact ⟨'f', _, rfl, by decide⟩
    | true => exact ⟨'t', _, rfl, by decide⟩
  | num n =>
    obtain ⟨c, t, he, hc⟩ := intChars_shape n
    refine ⟨c, t, by simp [strV, he], ?_⟩
    rcases hc with hc | hc
    · subst hc; decide
    · exact (isDigit_ne_specials c hc).2.2.2.2.2.2.2.1
  | str s => exact ⟨'"', _, rfl, by decide⟩
  | arr es =>
    cases es with
    | nil => exact ⟨'[', _, rfl, by decide⟩
    | cons x xs => exact ⟨'[', _, rfl, by decide⟩
  | obj fs =>
    cases fs with
    | nil => exact ⟨lbrace, _, rfl, by decide⟩
    | cons k v fs => exact ⟨lbrace, _, rfl, by decide⟩

theorem strE_headNonDigit (xs : JsonElems) (rest : List Char) :
    headNonDigit (strE xs ++ rest) := by
  cases xs <;> simp [strE, headNonDigit]

theorem strM_headNonDigit (fs : JsonFields) (rest : List Char) :
    headNonDigit (strM fs ++ rest) := by
  cases fs with
  | nil => simp [strM, headNonDigit]; decide
  | cons k v fs => simp [strM, headNonDigit]

theorem parseVal_num (g : Nat) (n : Int) (rest : List Char) (hrest : headNonDigit rest) :
    parseVal (g + 1) (intChars n ++ rest) = some (.num n, rest) := by
  have hfold : ∀ (d : Char) (ds : List Char), d.isDigit = true →
      (∀ c ∈ ds, c.isDigit = true) →
      parseDigits (ds ++ rest) (d.toNat - 48) = ((d :: ds).foldl digitStep 0, rest) := by
    intro d ds hd hds
    rw [parseDigits_append ds _ rest hds hrest]
    simp [digitStep]
  by_cases hn : n < 0
  · obtain ⟨hne, hdig, hval⟩ := natChars_spec n.natAbs
    cases h : natChars n.natAbs with
    | nil => exact absurd h hne
    | cons d ds =>
      have hd : d.isDigit = true := hdig d (by rw [h]; simp)
      have hds : ∀ c ∈ ds, c.isDigit = true := fun c hc => hdig c (by rw [h]; simp [hc])
      rw [show intChars n = '-' :: natChars n.natAbs from by simp [intChars, hn], h,
        List.cons_append, List.cons_append, parseVal]
      simp only [headCase, reduceIte]
      rw [if_pos hd]
      rw [hfold d ds hd hds]
      have h1 : (d :: ds).foldl digitStep 0 = n.natAbs := by rw [← h]; exact hval
      rw [h1]
      have h2 : -((n.natAbs : Nat) : Int) = n := by omega
      rw [h2]
      rw [if_neg (by decide : ¬('-' = lbrace)), if_neg (by decide : ¬('-' = '[')),
        if_neg (by decide : ¬('-' = '"')), if_neg (by decide : ¬('-' = 'n')),
        if_neg (by decide : ¬('-' = 't')), if_neg (by decide : ¬('-' = 'f'))]
  · obtain ⟨hne, hdig, hval⟩ := natChars_spec n.toNat
    cases h : natChars n.toNat with
    | nil => exact absurd h hne
    | cons d ds =>
      have hd : d.isDigit = true := hdig d (by rw [h]; simp)
      have hds : ∀ c ∈ ds, c.isDigit = true := fun c hc => hdig c (by rw [h]; simp [hc])
      obtain ⟨q1, q2, q3, q4, q5, q6, q7, _, _, _⟩ := isDigit_ne_specials d hd
      rw [show intChars n = natChars n.toNat from by simp [intChars, hn], h,
        List.cons_append, parseVal]
      simp only [headCase]
      rw [if_neg q1, if_neg q2, if_neg q3, if_neg q4, if_neg q5, if_neg q6, if_neg q7,
        if_pos hd]
      rw [hfold d ds hd hds]
      have h1 : (d :: ds).foldl digitStep 0 = n.toNat := by rw [← h]; exact hval
      rw [h1]
      have h2 : ((n.toNat : Nat) : Int) = n := by omega
      rw [h2]

theorem parseVal_rt : ∀ f v rest, pwV v ≤ f → headNonDigit rest →
    parseVal f (strV v ++ rest) = some (v, rest) := by
  intro f
  induction f with
  | zero =>
    intro v rest hw _
    have := pwV_pos v
    omega
  | succ g ih =>
    intro v rest hw hrest
    cases v with
    | null => rfl
    | bool b =>
      cases b with
      | false => rfl
      | true => rfl
    | num n => exact parseVal_num g n rest hrest
    | str s =>
      have hs : strV (.str s) ++ rest = '"' :: (escChars s.toList ++ '"' :: rest) := by
        simp [strV, strQuote]
      rw [hs, parseVal]
      simp only [headCase]
      rw [if_pos trivial]
      have hlen : s.toList.length < (escChars s.toList ++ '"' :: rest).length + 1 := by
        rw [List.length_append, List.length_cons]
        have := escChars_length_ge s.toList
        omega
      rw [parseStrAux_esc s.toList _ rest hlen]
      rfl
    | arr es =>
      cases es with
      | nil => rfl
      | cons x xs =>
        obtain ⟨cx, tx, hx, hcx⟩ := strV_head x
        have ha : strV (.arr (.cons x xs)) ++ rest =
            '[' :: (cx :: (tx ++ (strE xs ++ rest))) := by
          simp [strV, hx]
        rw [ha, parseVal]
        simp only [headCase]
        rw [if_neg (by decide : ¬('[' = lbrace)), if_pos trivial, if_neg hcx]
        have hback : cx :: (tx ++ (strE xs ++ rest)) = strV x ++ (strE xs ++ rest) := by
          rw [hx]
          rfl
        have hwx : pwV x ≤ g := by
          simp [pwV, pwE] at hw
          omega
        rw [hback, ih x _ hwx (strE_headNonDigit xs rest)]
        simp only [Option.some_bind]
        cases xs with
        | nil =>
          have h1 : strE JsonElems.nil ++ rest = ']' :: rest := by simp [strE]
          rw [h1]
          rfl
        | cons y ys =>
          have hy : strE (.cons y ys) ++ rest = ',' :: (strV y ++ (strE ys ++ rest)) := by
            simp [strE]
          rw [hy]
          dsimp only
          have hback2 : '[' :: (strV y ++ (strE ys ++ rest)) =
              strV (.arr (.cons y ys)) ++ rest := by
            simp [strV]
          have hwy : pwV (.arr (.cons y ys)) ≤ g := by
            simp [pwV, pwE] at hw ⊢
            omega
          rw [hback2, ih (.arr (.cons y ys)) rest hwy hrest]
          simp only [Option.some_bind]
          rfl
    | obj fs =>
      cases fs with
      | nil => rfl
      | cons k v fs =>
        have ho : strV (.obj (.cons k v fs)) ++ rest =
            lbrace :: ('"' :: (escChars k.toList ++ '"' :: (':' :: (strV v ++ (strM fs ++ rest))))) := by
          simp [strV, strQuote]
        rw [ho, parseVal]
        simp only [headCase]
        rw [if_pos trivial]
        rw [if_neg (by decide : ¬('"' = rbrace)), if_pos trivial]
        have hlen : k.toList.length <
            (escChars k.toList ++ '"' :: (':' :: (strV v ++ (strM fs ++ rest)))).length + 1 := by
          rw [List.length_append, List.length_cons]
          have := escChars_length_ge k.toList
          omega
        rw [parseStrAux_esc k.toList _ _ hlen]
        simp only [Option.some_bind]
        have hwv : pwV v ≤ g := by
          simp [pwV, pwM] at hw
          omega
        rw [ih v _ hwv (strM_headNonDigit fs rest)]
        simp only [Option.some_bind]
        cases fs with
        | nil =>
          have h1 : strM JsonFields.nil ++ rest = rbrace :: rest := by simp [strM]
          rw [h1]
          rfl
        | cons k2 v2 fs2 =>
          have hm : strM (.cons k2 v2 fs2) ++ rest =
              ',' :: ((strQuote k2 ++ ':' :: (strV v2 ++ strM fs2)) ++ rest) := by
            simp [strM]
          rw [hm]
          dsimp only
          have hback2 : lbrace :: ((strQuote k2 ++ ':' :: (strV v2 ++ strM fs2)) ++ rest) =
              strV (.obj (.cons k2 v2 fs2)) ++ rest := by
            simp [strV]
          have hw2 : pwV (.obj (.cons k2 v2 fs2)) ≤ g := by
            simp [pwV, pwM] at hw ⊢
            omega
          rw [hback2, ih (.obj (.cons k2 v2 fs2)) rest hw2 hrest]
          simp only [Option.some_bind]
          rfl

theorem strV_len_pos (v : JsonValue) : 1 ≤ (strV v).length := by
  obtain ⟨c, t, h, _⟩ := strV_head v
  rw [h]
  simp

theorem strE_len_pos (es : JsonElems) : 1 ≤ (strE es).length := by
  cases es <;> simp [strE]

theorem strM_len_pos (fs : JsonFields) : 1 ≤ (strM fs).length := by
  cases fs <;> simp [strM]

theorem pw_le : ∀ k,
    (∀ v, (strV v).length < k → pwV v ≤ (strV v).length) ∧
    (∀ es, (strE es).length < k → pwE es ≤ (strE es).length) ∧
    (∀ fs, (strM fs).length < k → pwM fs ≤ (strM fs).length) := by
  intro k
  induction k with
  | zero =>
    refine ⟨fun v h => absurd h ?_, fun es h => absurd h ?_, fun fs h => absurd h ?_⟩
    · have := strV_len_pos v; omega
    · have := strE_len_pos es; omega
    · have := strM_len_pos fs; omega
  | succ k ih =>
    obtain ⟨ihV, ihE, ihM⟩ := ih
    refine ⟨?_, ?_, ?_⟩
    · intro v hk
      cases v with
      | null => simp [pwV, strV]
      | bool b => cases b <;> simp [pwV, strV]
      | num n => exact le_trans (by simp [pwV]) (strV_len_pos (.num n))
      | str s => exact le_trans (by simp [pwV]) (strV_len_pos (.str s))
      | arr es =>
        cases es with
        | nil => simp [pwV, pwE, strV]
        | cons x xs =>
          have hx : (strV (.arr (.cons x xs))).length =
              1 + ((strV x).length + (strE xs).length) := by
            simp [strV]
            omega
          have hpw : pwV (.arr (.cons x xs)) = 1 + max (pwV x) (1 + pwE xs) := by
            simp [pwV, pwE]
          have p1 := strV_len_pos x
          have p2 := strE_len_pos xs
          rw [hx] at hk ⊢
          have h1 := ihV x (by omega)
          have h2 := ihE xs (by omega)
          rw [hpw]
          omega
      | obj fs =>
        cases fs with
        | nil => simp [pwV, pwM, strV]
        | cons k2 v fs =>
          have hx : (strV (.obj (.cons k2 v fs))).length =
              1 + ((strQuote k2).length + (1 + ((strV v).length + (strM fs).length))) := by
            simp [strV]
            omega
          have hpw : pwV (.obj (.cons k2 v fs)) = 1 + max (pwV v) (1 + pwM fs) := by
            simp [pwV, pwM]
          have p1 := strV_len_pos v
          have p2 := strM_len_pos fs
          have p3 : 2 ≤ (strQuote k2).length := by simp [strQuote]
          rw [hx] at hk ⊢
          have h1 := ihV v (by omega)
          have h2 := ihM fs (by omega)
          rw [hpw]
          omega
    · intro es hk
      cases es with
      | nil => simp [pwE, strE]
      | cons x xs =>
        have hx : (strE (.cons x xs)).length = 1 + ((strV x).length + (strE xs).length) := by
          simp [strE]
          omega
        have hpw : pwE (.cons x xs) = max (pwV x) (1 + pwE xs) := by simp [pwE]
        have p1 := strV_len_pos x
        have p2 := strE_len_pos xs
        rw [hx] at hk ⊢
        have h1 := ihV x (by omega)
        have h2 := ihE xs (by omega)
        rw [hpw]
        omega
    · intro fs hk
      cases fs with
      | nil => simp [pwM, strM]
      | cons k2 v fs =>
        have hx : (strM (.cons k2 v fs)).length =
            1 + ((strQuote k2).length + (1 + ((strV v).length + (strM fs).length))) := by
          simp [strM]
          omega
        have hpw : pwM (.cons k2 v fs) = max (pwV v) (1 + pwM fs) := by simp [pwM]
        have p1 := strV_len_pos v
        have p2 := strM_len_pos fs
        have p3 : 2 ≤ (strQuote k2).length := by simp [strQuote]
        rw [hx] at hk ⊢
        have h1 := ihV v (by omega)
        have h2 := ihM fs (by omega)
        rw [hpw]
        omega

/-- JSON.parse inverts JSON.stringify on every JSON value. -/
theorem jsonParse_stringify (v : JsonValue) : jsonParse (jsonStringify v) = some v := by
  have hb : pwV v ≤ (strV v).length := (pw_le ((strV v).length + 1)).1 v (by omega)
  have hmain := parseVal_rt ((strV v).length + 1) v [] (by omega) trivial
  rw [List.append_nil] at hmain
  unfold jsonParse jsonStringify
  rw [hmain]

theorem b64Val_b64Char : ∀ n, n < 64 → b64Val (b64Char n) = some n := by decide

theorem b64Char_ne_eq : ∀ n, b64Char n ≠ '=' := by
  intro n
  by_cases h : n < 64
  · revert h
    revert n
    decide
  · have : b64Alphabet.length ≤ n := by
      have : b64Alphabet.length = 64 := by decide
      omega
    rw [b64Char, List.getD_eq_default _ _ this]
    decide

theorem b64Char_not_ws : ∀ n, isAsciiWs (b64Char n) = false := by
  intro n
  by_cases h : n < 64
  · revert h
    revert n
    decide
  · have : b64Alphabet.length ≤ n := by
      have : b64Alphabet.length = 64 := by decide
      omega
    rw [b64Char, List.getD_eq_default _ _ this]
    decide

theorem btoaCore_no_ws : ∀ bs, (btoaCore bs).filter (fun c => !isAsciiWs c) = btoaCore bs
  | [] => rfl
  | [b0] => by
      simp [btoaCore, b64Char_not_ws]
      decide
  | [b0, b1] => by
      simp [btoaCore, b64Char_not_ws]
      decide
  | b0 :: b1 :: b2 :: rest => by
      simp [btoaCore, b64Char_not_ws, btoaCore_no_ws rest]

theorem btoaCore_len : ∀ bs, (btoaCore bs).length % 4 = 0
  | [] => rfl
  | [b0] => by simp [btoaCore]
  | [b0, b1] => by simp [btoaCore]
  | b0 :: b1 :: b2 :: rest => by
      have := btoaCore_len rest
      simp [btoaCore]
      omega

theorem btoaCore_len_big : ∀ bs, bs ≠ [] → 2 ≤ (btoaCore bs).length
  | [], h => absurd rfl h
  | [b0], _ => by simp [btoaCore]
  | [b0, b1], _ => by simp [btoaCore]
  | b0 :: b1 :: b2 :: rest, _ => by simp [btoaCore]

theorem dropTrail_append (A T : List Char) (h : 2 ≤ T.length) :
    dropTrail (A ++ T) = A ++ dropTrail T := by
  cases ht : T.reverse with
  | nil =>
    have hT : T = [] := by simpa using congrArg List.reverse ht
    subst hT
    simp at h
  | cons t1 tr =>
    cases htr : tr with
    | nil =>
      have hT : T = [t1] := by
        have := congrArg List.reverse ht
        simpa [htr] using this
      subst hT
      simp at h
    | cons t2 tr2 =>
      subst htr
      have hrev : (A ++ T).reverse = t1 :: t2 :: (tr2 ++ A.reverse) := by
        rw [List.reverse_append, ht]
        simp
      rw [dropTrail, hrev]
      dsimp only
      rw [dropTrail, ht]
      dsimp only
      by_cases h1 : t1 = '='
      · by_cases h2 : t2 = '='
        · rw [if_pos h1, if_pos h2, if_pos h1, if_pos h2]
          simp
        · rw [if_pos h1, if_neg h2, if_pos h1, if_neg h2]
          rw [show (t2 :: (tr2 ++ A.reverse)) = (t2 :: tr2) ++ A.reverse from rfl]
          simp
      · rw [if_neg h1, if_neg h1]

theorem btoaU_len_big : ∀ bs, bs ≠ [] → 2 ≤ (btoaU bs).length
  | [], h => absurd rfl h
  | [b0], _ => by simp [btoaU]
  | [b0, b1], _ => by simp [btoaU]
  | b0 :: b1 :: b2 :: rest, _ => by simp [btoaU]

theorem dropTrail_btoaCore : ∀ bs, dropTrail (btoaCore bs) = btoaU bs
  | [] => rfl
  | [b0] => by simp [btoaCore, btoaU, dropTrail]
  | [b0, b1] => by simp [btoaCore, btoaU, dropTrail, b64Char_ne_eq]
  | b0 :: b1 :: b2 :: rest => by
      cases hr : rest with
      | nil => simp [btoaCore, btoaU, dropTrail, b64Char_ne_eq]
      | cons r0 rs =>
        have hne : rest ≠ [] := by rw [hr]; simp
        rw [← hr]
        have hstep : btoaCore (b0 :: b1 :: b2 :: rest) =
            [b64Char (b0 / 4), b64Char (b0 % 4 * 16 + b1 / 16), b64Char (b1 % 16 * 4 + b2 / 64),
             b64Char (b2 % 64)] ++ btoaCore rest := by
          rw [hr]
          rfl
        have hstepU : btoaU (b0 :: b1 :: b2 :: rest) =
            [b64Char (b0 / 4), b64Char (b0 % 4 * 16 + b1 / 16), b64Char (b1 % 16 * 4 + b2 / 64),
             b64Char (b2 % 64)] ++ btoaU rest := by
          rw [hr]
          rfl
        rw [hstep, hstepU, dropTrail_append _ _ (btoaCore_len_big rest hne),
          dropTrail_btoaCore rest]

theorem atobCore_btoaU : ∀ bs, (∀ b ∈ bs, b < 256) → atobCore (btoaU bs) = some bs
  | [], _ => rfl
  | [b0], h => by
      have h0 : b0 < 256 := h b0 (by simp)
      simp [btoaU, atobCore, b64Val_b64Char _ (by omega : b0 / 4 < 64),
        b64Val_b64Char _ (by omega : b0 % 4 * 16 < 64)]
      omega
  | [b0, b1], h => by
      have h0 : b0 < 256 := h b0 (by simp)
      have h1 : b1 < 256 := h b1 (by simp)
      simp [btoaU, atobCore, b64Val_b64Char _ (by omega : b0 / 4 < 64),
        b64Val_b64Char _ (by omega : b0 % 4 * 16 + b1 / 16 < 64),
        b64Val_b64Char _ (by omega : b1 % 16 * 4 < 64)]
      omega
  | [b0, b1, b2], h => by
      have h0 : b0 < 256 := h b0 (by simp)
      have h1 : b1 < 256 := h b1 (by simp)
      have h2 : b2 < 256 := h b2 (by simp)
      simp [btoaU, atobCore, b64Val_b64Char _ (by omega : b0 / 4 < 64),
        b64Val_b64Char _ (by omega : b0 % 4 * 16 + b1 / 16 < 64),
        b64Val_b64Char _ (by omega : b1 % 16 * 4 + b2 / 64 < 64),
        b64Val_b64Char _ (by omega : b2 % 64 < 64)]
      omega
  | b0 :: b1 :: b2 :: r0 :: rs, h => by
      have h0 : b0 < 256 := h b0 (by simp)
      have h1 : b1 < 256 := h b1 (by simp)
      have h2 : b2 < 256 := h b2 (by simp)
      have hrest : ∀ b ∈ r0 :: rs, b < 256 := fun b hb => h b (by simp [hb])
      have hstepU : btoaU (b0 :: b1 :: b2 :: r0 :: rs) =
          b64Char (b0 / 4) :: b64Char (b0 % 4 * 16 + b1 / 16) ::
          b64Char (b1 % 16 * 4 + b2 / 64) :: b64Char (b2 % 64) :: btoaU (r0 :: rs) := rfl
      rw [hstepU]
      have hlen : 2 ≤ (btoaU (r0 :: rs)).length := btoaU_len_big _ (by simp)
      have hshape : atobCore (b64Char (b0 / 4) :: b64Char (b0 % 4 * 16 + b1 / 16) ::
          b64Char (b1 % 16 * 4 + b2 / 64) :: b64Char (b2 % 64) :: btoaU (r0 :: rs)) =
          (b64Val (b64Char (b0 / 4))).bind fun s0 =>
          (b64Val (b64Char (b0 % 4 * 16 + b1 / 16))).bind fun s1 =>
          (b64Val (b64Char (b1 % 16 * 4 + b2 / 64))).bind fun s2 =>
          (b64Val (b64Char (b2 % 64))).bind fun s3 =>
          (atobCore (btoaU (r0 :: rs))).map fun bs =>
            (s0 * 4 + s1 / 16) :: (s1 % 16 * 16 + s2 / 4) :: (s2 % 4 * 64 + s3) :: bs := by
        obtain ⟨u, us, hu⟩ : ∃ u us, btoaU (r0 :: rs) = u :: us := by
          cases hx : btoaU (r0 :: rs) with
          | nil => rw [hx] at hlen; simp at hlen
          | cons u us => exact ⟨u, us, rfl⟩
        rw [hu]
        rfl
      rw [hshape, b64Val_b64Char _ (by omega : b0 / 4 < 64),
        b64Val_b64Char _ (by omega : b0 % 4 * 16 + b1 / 16 < 64),
        b64Val_b64Char _ (by omega : b1 % 16 * 4 + b2 / 64 < 64),
        b64Val_b64Char _ (by omega : b2 % 64 < 64),
        atobCore_btoaU (r0 :: rs) hrest]
      simp only [Option.some_bind, Option.map_some]
      have e0 : b0 / 4 * 4 + (b0 % 4 * 16 + b1 / 16) / 16 = b0 := by omega
      have e1 : (b0 % 4 * 16 + b1 / 16) % 16 * 16 + b1 % 16 * 4 / 4 = b1 := by omega
      have e2 : b1 % 16 * 4 % 4 * 64 + b2 / 64 * 64 + b2 % 64 = b2 := by omega
      simp
      omega

/-- The atob of a btoa output recovers the original bytes. -/
theorem atobChars_btoaCore (bs : List Nat) (h : ∀ b ∈ bs, b < 256) :
    atobChars (btoaCore bs) = some bs := by
  rw [show atobChars (btoaCore bs) =
      atobCore (if ((btoaCore bs).filter (fun c => !isAsciiWs c)).length % 4 = 0 then
        dropTrail ((btoaCore bs).filter (fun c => !isAsciiWs c))
      else ((btoaCore bs).filter (fun c => !isAsciiWs c))) from rfl]
  rw [btoaCore_no_ws, if_pos (btoaCore_len bs), dropTrail_btoaCore, atobCore_btoaU bs h]

theorem char_valid_range (c : Char) :
    c.toNat < 55296 ∨ (57344 ≤ c.toNat ∧ c.toNat < 1114112) := by
  have h := c.valid
  unfold UInt32.isValidChar Nat.isValidChar at h
  rcases h with h | ⟨h1, h2⟩
  · exact Or.inl h
  · exact Or.inr ⟨h1, h2⟩

theorem utf8Decode_encChar (g : Nat) (c : Char) (X : List Nat) :
    utf8Decode (g + 1) (utf8EncodeChar c ++ X) = (utf8Decode g X).map fun cs => c :: cs := by
  have hval := char_valid_range c
  by_cases h1 : c.toNat < 128
  · have he : utf8EncodeChar c = [c.toNat] := by simp [utf8EncodeChar, h1]
    rw [he, List.cons_append, List.nil_append]
    simp only [utf8Decode]
    rw [if_pos h1, Char.ofNat_toNat]
  · by_cases h2 : c.toNat < 2048
    · have he : utf8EncodeChar c = [192 + c.toNat / 64, 128 + c.toNat % 64] := by
        simp [utf8EncodeChar, h1, h2]
      rw [he, List.cons_append, List.cons_append, List.nil_append]
      simp only [utf8Decode]
      rw [if_neg (by omega), if_neg (by omega), if_pos (by omega : 192 + c.toNat / 64 < 224)]
      rw [if_pos (by omega : 128 ≤ 128 + c.toNat % 64 ∧ 128 + c.toNat % 64 < 192)]
      rw [show (192 + c.toNat / 64 - 192) * 64 + (128 + c.toNat % 64 - 128) = c.toNat from by
        omega]
      rw [Char.ofNat_toNat]
    · by_cases h3 : c.toNat < 65536
      · have he : utf8EncodeChar c =
            [224 + c.toNat / 4096, 128 + c.toNat / 64 % 64, 128 + c.toNat % 64] := by
          simp [utf8EncodeChar, h1, h2, h3]
        rw [he, List.cons_append, List.cons_append, List.cons_append, List.nil_append]
        simp only [utf8Decode]
        rw [if_neg (by omega), if_neg (by omega), if_neg (by omega),
          if_pos (by omega : 224 + c.toNat / 4096 < 240)]
        rw [if_pos (by omega :
          (128 ≤ 128 + c.toNat / 64 % 64 ∧ 128 + c.toNat / 64 % 64 < 192) ∧
          (128 ≤ 128 + c.toNat % 64 ∧ 128 + c.toNat % 64 < 192))]
        rw [show (224 + c.toNat / 4096 - 224) * 4096 + (128 + c.toNat / 64 % 64 - 128) * 64 +
            (128 + c.toNat % 64 - 128) = c.toNat from by omega]
        rw [if_pos (by omega : 2048 ≤ c.toNat ∧ (c.toNat < 55296 ∨ 57344 ≤ c.toNat))]
        rw [Char.ofNat_toNat]
      · have hub : c.toNat < 1114112 := by omega
        have he : utf8EncodeChar c =
            [240 + c.toNat / 262144, 128 + c.toNat / 4096 % 64, 128 + c.toNat / 64 % 64,
             128 + c.toNat % 64] := by
          simp [utf8EncodeChar, h1, h2, h3]
        rw [he, List.cons_append, List.cons_append, List.cons_append, List.cons_append,
          List.nil_append]
        simp only [utf8Decode]
        rw [if_neg (by omega), if_neg (by omega), if_neg (by omega), if_neg (by omega),
          if_pos (by omega : 240 + c.toNat / 262144 < 245)]
        rw [if_pos (by omega :
          (128 ≤ 128 + c.toNat / 4096 % 64 ∧ 128 + c.toNat / 4096 % 64 < 192) ∧
          (128 ≤ 128 + c.toNat / 64 % 64 ∧ 128 + c.toNat / 64 % 64 < 192) ∧
          (128 ≤ 128 + c.toNat % 64 ∧ 128 + c.toNat % 64 < 192))]
        rw [show (240 + c.toNat / 262144 - 240) * 262144 + (128 + c.toNat / 4096 % 64 - 128) *
            4096 + (128 + c.toNat / 64 % 64 - 128) * 64 + (128 + c.toNat % 64 - 128) =
            c.toNat from by omega]
        rw [if_pos (by omega : 65536 ≤ c.toNat ∧ c.toNat < 1114112)]
        rw [Char.ofNat_toNat]

theorem utf8Encode_lt256 : ∀ l, ∀ b ∈ utf8Encode l, b < 256 := by
  intro l
  induction l with
  | nil => simp [utf8Encode]
  | cons c l ih =>
    intro b hb
    have hsplit : utf8Encode (c :: l) = utf8EncodeChar c ++ utf8Encode l := by
      simp [utf8Encode]
    rw [hsplit] at hb
    rcases List.mem_append.mp hb with hb | hb
    · have hval := char_valid_range c
      by_cases h1 : c.toNat < 128
      · simp [utf8EncodeChar, h1] at hb
        omega
      · by_cases h2 : c.toNat < 2048
        · simp [utf8EncodeChar, h1, h2] at hb
          rcases hb with hb | hb <;> omega
        · by_cases h3 : c.toNat < 65536
          · simp [utf8EncodeChar, h1, h2, h3] at hb
            rcases hb with hb | hb | hb <;> omega
          · simp [utf8EncodeChar, h1, h2, h3] at hb
            rcases hb with hb | hb | hb | hb <;> omega
    · exact ih b hb

theorem utf8Encode_len_ge : ∀ l : List Char, l.length ≤ (utf8Encode l).length := by
  intro l
  induction l with
  | nil => simp [utf8Encode]
  | cons c l ih =>
    have hsplit : utf8Encode (c :: l) = utf8EncodeChar c ++ utf8Encode l := by
      simp [utf8Encode]
    rw [hsplit, List.length_append, List.length_cons]
    have : 1 ≤ (utf8EncodeChar c).length := by
      rw [utf8EncodeChar]
      repeat' split
      all_goals simp
    omega

theorem utf8Decode_encode : ∀ l (f : Nat), l.length < f →
    utf8Decode f (utf8Encode l) = some l := by
  intro l
  induction l with
  | nil =>
    intro f h
    obtain ⟨g, rfl⟩ : ∃ g, f = g + 1 := ⟨f - 1, by omega⟩
    rfl
  | cons c l ih =>
    intro f h
    obtain ⟨g, rfl⟩ : ∃ g, f = g + 1 := ⟨f - 1, by omega⟩
    have hsplit : utf8Encode (c :: l) = utf8EncodeChar c ++ utf8Encode l := by
      simp [utf8Encode]
    rw [hsplit, utf8Decode_encChar g c _, ih g (by simp at h; omega)]
    rfl

/-- UTF-8 decoding inverts UTF-8 encoding. -/
theorem utf8DecodeBytes_encode (l : List Char) : utf8DecodeBytes (utf8Encode l) = some l := by
  have := utf8Encode_len_ge l
  exact utf8Decode_encode l ((utf8Encode l).length + 1) (by omega)

theorem formDecode_id (s : String) (h : '+' ∉ s.toList) :
    formDecode s = s := by
  have hmap : ∀ cs : List Char, '+' ∉ cs →
      cs.map (fun c => if c = '+' then ' ' else c) = cs := by
    intro cs
    induction cs with
    | nil => intro _; rfl
    | cons c cs ih =>
      intro hc
      simp only [List.mem_cons, not_or] at hc
      simp only [List.map_cons]
      rw [if_neg (fun he => hc.1 he.symm), ih hc.2]
  rw [formDecode, hmap s.toList h]
  rfl

/-- The full share decode inverts the full share encode. -/
theorem decodeShare_shareEncode (j : JsonValue) :
    decodeShare (shareEncode j) = some j := by
  rw [decodeShare, shareEncode]
  rw [show (String.mk (btoaCore (utf8Encode (jsonStringify j)))).toList =
      btoaCore (utf8Encode (jsonStringify j)) from rfl]
  rw [atobChars_btoaCore _ (utf8Encode_lt256 (jsonStringify j))]
  rw [Option.some_bind, utf8DecodeBytes_encode, Option.some_bind, jsonParse_stringify]

theorem checkRoute_share_error (s : Session) (d : String)
    (hadmin : isAdminLoc s.location = false) (hshare : s.location.share = some d)
    (hidle : s.appState = .IDLE) (hdec : decodeShare d = none) :
    checkRoute s = { s with location := rootLoc } := by
  rw [checkRoute, if_neg (by simp [hadmin]), hshare]
  dsimp only
  rw [if_pos hidle, hdec]

theorem checkRoute_share_adopt (s : Session) (d : String) (j : JsonValue)
    (hadmin : isAdminLoc s.location = false) (hshare : s.location.share = some d)
    (hidle : s.appState = .IDLE) (hdec : decodeShare d = some j)
    (hadopt : adoptCheck j = .ok true) :
    checkRoute s = { s with analysis := some j, appState := .RESULT } := by
  rw [checkRoute, if_neg (by simp [hadmin]), hshare]
  dsimp only
  rw [if_pos hidle, hdec]
  dsimp only
  rw [hadopt]

theorem checkRoute_share_falsy (s : Session) (d : String) (j : JsonValue)
    (hadmin : isAdminLoc s.location = false) (hshare : s.location.share = some d)
    (hidle : s.appState = .IDLE) (hdec : decodeShare d = some j)
    (hadopt : adoptCheck j = .ok false) :
    checkRoute s = s := by
  rw [checkRoute, if_neg (by simp [hadmin]), hshare]
  dsimp only
  rw [if_pos hidle, hdec]
  dsimp only
  rw [hadopt]

/-! ## Claim C1 -/

/-- Claim C1 (code bug): the claim says a LogRecord is created iff
analyze() succeeds and that a persistence failure (IP lookup or storage
write) never changes the Result/Error outcome; storageService's own
comment ("Don't throw, just log error so app flow continues") says the
same.  The code violates the storage-write half: saveRecord returns the
store.add promise from inside try without an await, so its rejection
bypasses the catch, handleAnalysis catches it instead, and a session whose
analysis succeeded ends in Error.  This theorem evaluates the code at the
failing input (analysis ok, database open ok, store.add fails): the
session ends in Error and no record is stored; at the IP-failure input the
claim's behaviour does hold. -/
theorem saveRecord_write_failure_reaches_error :
    (handleAnalysis envWriteFail idleSession).appState = .ERROR ∧
    recordStored envWriteFail = false ∧
    (handleAnalysis envIpFail idleSession).appState = .RESULT ∧
    recordStored envIpFail = true := by
  refine ⟨rfl, rfl, rfl, rfl⟩

/-! ## Claim C2 -/

/-- Claim C2, counterexample: the payload consisting of an empty JSON
object is parsable but misses every required field, yet analyzeVoice
returns it and the session transitions to Result carrying it — the claim's
"never transitions to Result with a partially-filled result, and always
transitions to Error" is false at this input. -/
theorem analyzeVoice_missing_fields_cex :
    hasAllRequiredFields (JsonValue.obj .nil) = false ∧
    analyzeVoice envEmptyPayload.analyzer = .ok (.obj .nil) ∧
    (handleAnalysis envEmptyPayload idleSession).appState = .RESULT ∧
    (handleAnalysis envEmptyPayload idleSession).analysis = some (.obj .nil) :=
  ⟨rfl, rfl, rfl, rfl⟩

/-- Claim C2 amended: analyze() is a hard failure exactly when the response
text is absent, empty or unparsable — those runs always transition the
session to Error — but a parsable payload is returned with no
required-field validation, and with persistence healthy the session
transitions to Result carrying the parsed (possibly partially-filled)
value. -/
theorem analyzeVoice_no_field_validation (env : AnalysisEnv) (s : Session)
    (hdb : env.persist.dbOpen = .ok ()) (hadd : env.persist.storeAdd = .ok ()) :
    (analyzeVoice env.analyzer = .error () → (handleAnalysis env s).appState = .ERROR) ∧
    (∀ j, analyzeVoice env.analyzer = .ok j →
      (handleAnalysis env s).appState = .RESULT ∧
      (handleAnalysis env s).analysis = some j) := by
  have hsave : saveRecord env.persist = .resolved true := by
    rw [saveRecord, hdb, hadd]
  constructor
  · intro he
    rw [handleAnalysis, he]
  · intro j hj
    rw [handleAnalysis, hj, hsave]
    exact ⟨rfl, rfl⟩

/-- Witness for the amended claim C2 at a concrete healthy environment. -/
theorem analyzeVoice_no_field_validation_witness :
    (handleAnalysis envAllOk idleSession).appState = .RESULT ∧
    (handleAnalysis envAllOk idleSession).analysis =
      some (.obj (.cons "overallScore" (.num 82) .nil)) :=
  (analyzeVoice_no_field_validation envAllOk idleSession rfl rfl).2
    (.obj (.cons "overallScore" (.num 82) .nil)) rfl

/-! ## Claim C3 -/

/-- Claim C3, counterexample: the fifteenth tick sets the counter to 15 but
does not stop — the session is still Recording for a further full second —
and only the sixteenth tick, observing the counter already at 15, forces
the stop.  The claim's "when the counter reaches 15 the stop transition to
Processing is forced within the same timer tick" is false. -/
theorem timer_cap_not_same_tick_cex :
    (timerTick^[15] (startRecordingOk idleSession [true])).timer = 15 ∧
    (timerTick^[15] (startRecordingOk idleSession [true])).appState = .RECORDING ∧
    (timerTick^[16] (startRecordingOk idleSession [true])).appState = .PROCESSING := by
  refine ⟨by decide, by decide, by decide⟩

theorem timerTick_le (s : Session) (h : s.timer ≤ 15) : (timerTick s).timer ≤ 15 := by
  rw [timerTick]
  by_cases hi : s.intervalActive
  · rw [if_neg (by simp [hi])]
    by_cases hc : 15 ≤ s.timer
    · rw [if_pos hc]
      exact h
    · rw [if_neg hc]
      simp
      omega
  · rw [if_pos (by simp [hi])]
    exact h

/-- Claim C3 amended: the elapsed-seconds counter never leaves the range
0 to 15 during any run of ticks after a recording start, and the automatic
stop is forced on the first tick that observes the counter already at 15
(one tick after the counter reached 15), entering Processing without any
manual stop and leaving the counter unchanged. -/
theorem timer_range_and_forced_stop :
    (∀ (s : Session) (tracks : List Bool) (n : Nat),
      (timerTick^[n] (startRecordingOk s tracks)).timer ≤ 15) ∧
    (∀ s : Session, s.intervalActive = true → 15 ≤ s.timer →
      (timerTick s).appState = .PROCESSING ∧ (timerTick s).timer = s.timer) := by
  constructor
  · intro s tracks n
    induction n with
    | zero => simp [startRecordingOk]
    | succ n ih =>
      rw [Function.iterate_succ_apply']
      exact timerTick_le _ ih
  · intro s hi hc
    rw [timerTick, if_neg (by simp [hi]), if_pos hc]
    exact ⟨rfl, rfl⟩

/-- Witness for the amended claim C3: a concrete run (three ticks stay in
range; a session whose counter sits at 15 with a live interval stops on
the next tick). -/
theorem timer_range_and_forced_stop_witness :
    (timerTick^[3] (startRecordingOk idleSession [true])).timer ≤ 15 ∧
    (timerTick (timerTick^[15] (startRecordingOk idleSession [true]))).appState =
      .PROCESSING :=
  ⟨timer_range_and_forced_stop.1 idleSession [true] 3,
   (timer_range_and_forced_stop.2 (timerTick^[15] (startRecordingOk idleSession [true]))
     (by decide) (by decide)).1⟩

/-! ## Claim C4 -/

/-- Claim C4, counterexample: `zeroScoreResult` is a fully populated
AnalysisResult whose overall score is 0; its share link decodes perfectly,
but the adoption predicate tests JavaScript truthiness of overallScore, so
0 is rejected: the session is not adopted into Result and keeps no
analysis — the claim's "is adopted into Result state and reproduces the
original overall score" fails at this value. -/
theorem share_roundtrip_zero_score_cex :
    (checkRoute zeroScoreShareSession).appState = .IDLE ∧
    (checkRoute zeroScoreShareSession).analysis = none :=
  ⟨rfl, rfl⟩

/-- Claim C4 amended: for every AnalysisResult whose overall score is
nonzero (truthy) and whose base64 payload contains no plus character — the
share link embeds the base64 raw, and the query-parameter parser turns a
plus into a space, corrupting any payload containing one — opening the
produced link in an idle session decodes the payload, passes the adoption
predicate, adopts it into Result, and reproduces the original JSON (in
particular the overall score and the five metrics) exactly. -/
theorem share_roundtrip_adopted (a : VoiceAnalysisResult) (s : Session)
    (hidle : s.appState = .IDLE)
    (hadmin : isAdminLoc s.location = false)
    (hshare : s.location.share = some (formDecode (shareEncode (resultJson a))))
    (hplus : '+' ∉ (shareEncode (resultJson a)).toList)
    (hscore : a.overallScore ≠ 0) :
    (checkRoute s).appState = .RESULT ∧
    (checkRoute s).analysis = some (resultJson a) ∧
    jsGet (resultJson a) "overallScore" = .ok (some (.num a.overallScore)) ∧
    jsGet (resultJson a) "metrics" = .ok (some (metricsJson a.metrics)) := by
  have hform : formDecode (shareEncode (resultJson a)) = shareEncode (resultJson a) :=
    formDecode_id _ hplus
  have hget1 : jsGet (resultJson a) "overallScore" = .ok (some (.num a.overallScore)) := rfl
  have hget2 : jsGet (resultJson a) "metrics" = .ok (some (metricsJson a.metrics)) := rfl
  have htr : truthy (some (.num a.overallScore)) = true := by
    simp [truthy]
    exact hscore
  have hbind : ∀ (x : Option JsonValue) (f : Option JsonValue → Except Unit Bool),
      (Except.ok x).bind f = f x := fun _ _ => rfl
  have hadopt : adoptCheck (resultJson a) = .ok true := by
    rw [adoptCheck, hget1, hbind, if_pos htr, hget2]
    rfl
  have hmain := checkRoute_share_adopt s _ (resultJson a) hadmin
    (by rw [hshare, hform]) hidle (decodeShare_shareEncode (resultJson a)) hadopt
  rw [hmain]
  exact ⟨rfl, rfl, hget1, hget2⟩

/-- Witness for the amended claim C4 at `sampleResult` (score 74, whose
encoded payload is plus-free). -/
theorem share_roundtrip_adopted_witness :
    (checkRoute sampleShareSession).appState = .RESULT ∧
    (checkRoute sampleShareSession).analysis = some (resultJson sampleResult) := by
  have h := share_roundtrip_adopted sampleResult sampleShareSession rfl rfl rfl
    (by decide) (by decide)
  exact ⟨h.1, h.2.1⟩

/-! ## Claim C5 -/

/-- Claim C5: a malformed or truncated share payload never escapes the try
block: the decode failure is swallowed, the location is replaced with the
bare root, and the session — Idle, as required for the decode to run at
all — is otherwise untouched, so it remains Idle. -/
theorem malformed_share_swallowed (s : Session) (d : String)
    (hidle : s.appState = .IDLE) (hadmin : isAdminLoc s.location = false)
    (hshare : s.location.share = some d) (hbad : decodeShare d = none) :
    checkRoute s = { s with location := rootLoc } :=
  checkRoute_share_error s d hadmin hshare hidle hbad

/-- Witness for claim C5 at the undecodable payload "!!!". -/
theorem malformed_share_swallowed_witness :
    checkRoute malformedShareSession = { malformedShareSession with location := rootLoc } :=
  malformed_share_swallowed malformedShareSession "!!!" rfl rfl rfl (by decide)

/-! ## Claim C6 -/

/-- Claim C6: the adoption branch is guarded by the Idle check, so once the
session has moved past Idle a share payload in the location never
re-triggers adoption: the analysis and the location are unchanged, and the
state either stays what it was or switches to Admin (the admin branch is
the only one not guarded). -/
theorem no_readoption_past_idle (s : Session) (h : s.appState ≠ .IDLE) :
    (checkRoute s).analysis = s.analysis ∧
    (checkRoute s).location = s.location ∧
    ((checkRoute s).appState = s.appState ∨ (checkRoute s).appState = .ADMIN) := by
  rw [checkRoute]
  by_cases ha : isAdminLoc s.location
  · rw [if_pos (by simp [ha])]
    exact ⟨rfl, rfl, Or.inr rfl⟩
  · rw [if_neg (by simp [ha])]
    cases hs : s.location.share with
    | none => exact ⟨rfl, rfl, Or.inl rfl⟩
    | some d =>
      dsimp only
      rw [if_neg h]
      exact ⟨rfl, rfl, Or.inl rfl⟩

/-- Witness for claim C6: a session already in Result with a decodable
share payload still present is left completely alone. -/
theorem no_readoption_past_idle_witness :
    (checkRoute resultWithShareSession).analysis = resultWithShareSession.analysis ∧
    (checkRoute resultWithShareSession).location = resultWithShareSession.location ∧
    ((checkRoute resultWithShareSession).appState = resultWithShareSession.appState ∨
      (checkRoute resultWithShareSession).appState = .ADMIN) :=
  no_readoption_past_idle resultWithShareSession (by decide)

/-! ## Claim C7 -/

/-- Claim C7: stop is idempotent.  Applying stopRecording to an
already-stopped session changes nothing (the recorder is already inactive,
clearing the interval again is a no-op, stopping stopped tracks is a
no-op, and the state is already Processing), and a pending timer tick
firing after a stop is also a no-op because the interval is cleared — so
whichever of the manual stop and the automatic cap stop fires first wins
and the other leaves the same session. -/
theorem stopRecording_idempotent (s : Session) :
    stopRecording (stopRecording s) = stopRecording s ∧
    timerTick (stopRecording s) = stopRecording s := by
  constructor
  · cases hr : s.recorder with
    | none => cases hs : s.stream <;> simp [stopRecording, hr, hs, List.map_map]
    | some st =>
      cases st <;> cases hs : s.stream <;> simp [stopRecording, hr, hs, List.map_map]
  · rw [timerTick, if_pos ?_]
    rw [stopRecording]
    simp

/-! ## Claim C8 -/

/-- Claim C8, counterexample: resetApp does not clear the elapsed-seconds
counter.  A Result-state session whose counter sits at 7 returns to Idle
with the counter still at 7 — the claim's "clears all session fields
(..., elapsed-seconds counter)" is false.  (The counter is re-zeroed only
by the next startRecording.) -/
theorem resetApp_timer_not_cleared_cex :
    (resetApp resultSession7).appState = .IDLE ∧
    (resetApp resultSession7).timer = 7 :=
  ⟨rfl, rfl⟩

/-- Claim C8 amended: from Result or Error, reset returns the session to
Idle and clears the analysis, captured audio, stream, error message and
copied marker, and clears the share and admin markers from the location
(query and hash gone; the pathname reset to the root when it or the hash
mentioned admin) — but it leaves the elapsed-seconds counter unchanged. -/
theorem resetApp_clears_fields (s : Session)
    (_h : s.appState = .RESULT ∨ s.appState = .ERROR) :
    (resetApp s).appState = .IDLE ∧ (resetApp s).analysis = none ∧
    (resetApp s).audioBlob = none ∧ (resetApp s).stream = none ∧
    (resetApp s).errorMsg = "" ∧ (resetApp s).isCopied = false ∧
    (resetApp s).location.share = none ∧ (resetApp s).location.hash = "" ∧
    (resetApp s).timer = s.timer := by
  refine ⟨rfl, rfl, rfl, rfl, rfl, rfl, ?_, ?_, rfl⟩
  · rw [resetApp]
    dsimp only
    split
    · rfl
    · rfl
  · rw [resetApp]
    dsimp only
    split
    · rfl
    · rfl

/-- Witness for the amended claim C8 at a concrete Error-state session. -/
theorem resetApp_clears_fields_witness :
    (resetApp errorSession3).appState = .IDLE ∧ (resetApp errorSession3).analysis = none ∧
    (resetApp errorSession3).audioBlob = none ∧ (resetApp errorSession3).stream = none ∧
    (resetApp errorSession3).errorMsg = "" ∧ (resetApp errorSession3).isCopied = false ∧
    (resetApp errorSession3).location.share = none ∧
    (resetApp errorSession3).location.hash = "" ∧
    (resetApp errorSession3).timer = errorSession3.timer :=
  resetApp_clears_fields errorSession3 (Or.inr rfl)

/-! ## Claim C9 -/

/-- Claim C9: for every stored set of records, getAllRecords returns a
permutation of them ordered newest first by timestamp (every record is
followed only by records with a timestamp no larger than its own). -/
theorem getAllRecords_sorted_newest_first (l : List VoiceRecord) :
    (getAllRecords (.ok l)).Sorted (fun a b => b.timestamp ≤ a.timestamp) ∧
    (getAllRecords (.ok l)).Perm l := by
  constructor
  · exact List.sorted_insertionSort _ l
  · exact List.perm_insertionSort _ l

/-! ## Claim C10 -/

/-- Claim C10: a share payload that decodes successfully but whose
overallScore (or metrics) is absent, null, zero or otherwise falsy is
silently declined: the adoption predicate is plain JavaScript truthiness,
no exception is thrown, so the catch does not run and — unlike the
malformed-payload path — the location is not reset; the session is left
exactly as it was, Idle with no analysis adopted. -/
theorem falsy_share_not_adopted (s : Session) (d : String) (j : JsonValue)
    (hidle : s.appState = .IDLE) (hadmin : isAdminLoc s.location = false)
    (hshare : s.location.share = some d) (hdec : decodeShare d = some j)
    (hfalsy : adoptCheck j = .ok false) :
    checkRoute s = s :=
  checkRoute_share_falsy s d j hadmin hshare hidle hdec hfalsy

/-- Witness for claim C10: a payload with overallScore 0 and a metric set
decodes, is declined, and the session (location included) is unchanged. -/
theorem falsy_share_not_adopted_witness :
    checkRoute falsyShareSession = falsyShareSession :=
  falsy_share_not_adopted falsyShareSession
    (String.mk (btoaCore (utf8Encode
      "\x7b\"overallScore\":0,\"metrics\":\x7b\"clarity\":80\x7d\x7d".toList)))
    (.obj (.cons "overallScore" (.num 0)
      (.cons "metrics" (.obj (.cons "clarity" (.num 80) .nil)) .nil)))
    rfl rfl rfl rfl rfl

